import Mathlib

/-!
Verification development for `constant_rate_model/N4_result_extraction.ipynb`.

The notebook performs a single aggregation pass: it enumerates MCMC chain files in
`RESULTS/MCMC_results/`, and for each gene reads the chain table and the
posterior-predictive table, computes MAP point estimates, highest-density intervals,
percentiles and a simulated 6-point model trajectory, and accumulates everything into
one summary table written to `extracted_results/MCMC_result_collection.csv`.

The embedding below models the file system (`listdir`/`isfile`/`pd.read_csv`) and the
external numeric functions (`np.exp`, `scipy.integrate.odeint`) as an explicit
environment; machine floats are idealised as exact rationals.  Fallible steps
(missing files, the `numpy` broadcast check when a row is written into the
pre-allocated 54-column array, the `argmax` of an empty column, the `NameError` on an
empty chain list) are modelled with `Except`.
-/

namespace SpatialMP

/-- One entry of `listdir(MC_folder)` together with its `os.path.isfile` flag. -/
structure DirEntry where
  name : String
  isFile : Bool
deriving DecidableEq

/-- One row of a gene's MCMC chain table (`<gene>_..._chain_sample.csv`), with the
columns the notebook uses: `log_prob`, `log_beta`, `log_delta`, `Pzero`. -/
structure ChainRow where
  log_prob : ℚ
  log_beta : ℚ
  log_delta : ℚ
  Pzero : ℚ
deriving DecidableEq

/-- Record of one call
`odeint(protein_ODE, Pzero, time_vec, args=(mRNA_fun, beta, delta))`.
The `gene` field stands for the interpolated mRNA function `M_interp_dict[gene]`
(the lookup key determines the function passed to the solver). -/
structure OdeCall where
  y0 : ℚ
  grid : List ℚ
  gene : String
  beta : ℚ
  delta : ℚ
deriving DecidableEq

/-- The ambient environment of the notebook: the directory contents, the parsed CSV
tables by absolute path (`none` models a file that is missing at read time, which
makes `pd.read_csv` raise), `np.exp` and the numeric ODE solver `odeint`.
`odeSolve y0 grid gene beta delta` returns the solution values on `grid`; the
`gene` argument stands for the mRNA interpolation function `M_interp_dict[gene]`. -/
structure Env where
  entries : List DirEntry
  chainCsv : String → Option (List ChainRow)
  ppCsv : String → Option (List (String × ℚ))
  exp : ℚ → ℚ
  odeSolve : ℚ → List ℚ → String → ℚ → ℚ → List ℚ

/-- `MC_folder = "RESULTS/MCMC_results/"`. -/
def MC_folder : String := "RESULTS/MCMC_results/"

/-- `[f for f in listdir(MC_folder) if isfile(join(MC_folder, f)) and
f.endswith('chain_sample.csv')]`, then `sorted(...)`. -/
def chainList (env : Env) : List String :=
  List.insertionSort (fun a b => a ≤ b)
    ((env.entries.filter
        (fun e => e.isFile && e.name.endsWith "chain_sample.csv")).map DirEntry.name)

/-- `[f for f in listdir(MC_folder) if isfile(join(MC_folder, f)) and
f.endswith('posterior_predictive_results.csv')]`, then `sorted(...)`. -/
def ppFileList (env : Env) : List String :=
  List.insertionSort (fun a b => a ≤ b)
    ((env.entries.filter
        (fun e => e.isFile && e.name.endsWith "posterior_predictive_results.csv")).map
      DirEntry.name)

/-- `gene = chain_file.split('_')[0]`: the substring before the first underscore. -/
def geneOf (chain_file : String) : String := (chain_file.splitOn "_").headD ""

/-- `pp_path = MC_folder + gene + '_' + 'posterior_predictive_results.csv'`. -/
def ppPath (gene : String) : String :=
  MC_folder ++ gene ++ "_" ++ "posterior_predictive_results.csv"

/-- `np.mean` of a list of rationals. -/
def meanQ (xs : List ℚ) : ℚ := xs.sum / (xs.length : ℚ)

/-- `model_vals / np.mean(model_vals)`, elementwise. -/
def meanNormalize (xs : List ℚ) : List ℚ := xs.map (fun x => x / meanQ xs)

/-- Ascending sort of a rational sample column (`np.sort`). -/
def sortAsc (xs : List ℚ) : List ℚ := List.insertionSort (fun a b => a ≤ b) xs

/-- The number of samples lying in the closed interval `[a, b]`. -/
def inCount (a b : ℚ) (xs : List ℚ) : ℕ :=
  xs.countP (fun x => decide (a ≤ x) && decide (x ≤ b))

/-- `np.linspace(a, b, num)`. -/
def linspace (a b : ℚ) (num : ℕ) : List ℚ :=
  (List.range num).map (fun i => a + (b - a) * (i : ℚ) / ((num : ℚ) - 1))

/-- `time_vec = np.linspace(0, 96, 6)`. -/
def time_vec : List ℚ := linspace 0 96 6

/-- `np.argmax`: the first index at which the maximum is attained (`numpy` keeps the
current best and replaces it only on a strict improvement). -/
def argmaxIdx (xs : List ℚ) : ℕ :=
  (List.range xs.length).foldl
    (fun best i => if xs.getD best 0 < xs.getD i 0 then i else best) 0

/-- `chain_df.iloc[chain_df['log_prob'].argmax()]`: the chain row of maximal
sampled log-probability (first such row). -/
def modeRow (chain_df : List ChainRow) : ChainRow :=
  chain_df.getD (argmaxIdx (chain_df.map ChainRow.log_prob)) ⟨0, 0, 0, 0⟩

/-- First-minimum selection by a weight function over a list of candidate indices,
starting from default candidate `b` (a fold mirroring `np.argmin`). -/
def argminRange (w : ℕ → ℚ) (ks : List ℕ) (b : ℕ) : ℕ :=
  ks.foldl (fun best k => if w k < w best then k else best) b

/-- The number of samples an interval must contain to hold probability mass `p`
out of `n` samples: `⌈p * n⌉`, clamped into `[1, n]`. -/
def hdiCount (p : ℚ) (n : ℕ) : ℕ := min n (max 1 (Int.toNat ⌈p * (n : ℚ)⌉))

/-- Modelled from the spec: the function `HDI` is imported from `MCMC_pipe`, a module
that is not part of this repository.  The spec describes it as computing the
"narrowest interval containing a given probability mass of a sampled distribution";
this is realised as the narrowest window of `hdiCount p n` consecutive order
statistics of the samples. -/
def HDI (samples : List ℚ) (p : ℚ) : ℚ × ℚ :=
  let s := sortAsc samples
  let n := s.length
  let m := hdiCount p n
  let w : ℕ → ℚ := fun k => s.getD (k + m - 1) 0 - s.getD k 0
  let k0 := argminRange w (List.range (n - m + 1)) 0
  (s.getD k0 0, s.getD (k0 + m - 1) 0)

/-- `np.percentile(xs, q)` with the default linear interpolation between the two
nearest order statistics. -/
def percentileQ (xs : List ℚ) (q : ℚ) : ℚ :=
  let s := sortAsc xs
  let h : ℚ := q / 100 * ((s.length : ℚ) - 1)
  let lo : ℕ := Int.toNat ⌊h⌋
  let x0 := s.getD lo 0
  let x1 := s.getD (lo + 1) x0
  x0 + (h - (lo : ℚ)) * (x1 - x0)

/-- `odeint(protein_ODE, res_dict['Pzero_mode'], time_vec, args=(mRNA_fun,
res_dict['beta_mode'], res_dict['delta_mode'])).T[0]`. -/
def modelValsOf (env : Env) (gene : String) (chain_df : List ChainRow) : List ℚ :=
  env.odeSolve (modeRow chain_df).Pzero time_vec gene
    (env.exp (modeRow chain_df).log_beta) (env.exp (modeRow chain_df).log_delta)

/-- The `OdeCall` record of the single `odeint` call the loop body makes for a gene. -/
def odeCallOf (env : Env) (gene : String) (chain_df : List ChainRow) : OdeCall :=
  { y0 := (modeRow chain_df).Pzero
    grid := time_vec
    gene := gene
    beta := env.exp (modeRow chain_df).log_beta
    delta := env.exp (modeRow chain_df).log_delta }

/-- The 29 keys the loop body writes into `res_dict` before the posterior-predictive
rows, in insertion order (the `for tp in range(6)` loop is unrolled). -/
def statKeys : List String :=
  ["beta_mode", "delta_mode", "Pzero_mode",
   "protein model MAP (mean-normalized), V1",
   "protein model MAP (scaled to molecules/cell), V1",
   "protein model MAP (mean-normalized), V2",
   "protein model MAP (scaled to molecules/cell), V2",
   "protein model MAP (mean-normalized), V3",
   "protein model MAP (scaled to molecules/cell), V3",
   "protein model MAP (mean-normalized), V4",
   "protein model MAP (scaled to molecules/cell), V4",
   "protein model MAP (mean-normalized), V5",
   "protein model MAP (scaled to molecules/cell), V5",
   "protein model MAP (mean-normalized), V6",
   "protein model MAP (scaled to molecules/cell), V6",
   "beta_HDI95_left", "beta_HDI95_right", "delta_HDI95_left", "delta_HDI95_right",
   "beta_HDI68_left", "beta_HDI68_right", "delta_HDI68_left", "delta_HDI68_right",
   "beta_p16", "beta_p50", "beta_p84", "delta_p16", "delta_p50", "delta_p84"]

/-- The first 29 entries of `res_dict` for one gene, in insertion order.  A Python
dict is modelled as an ordered association list; since these 29 keys are pairwise
distinct string literals, the successive fresh-key insertions amount to this literal
list (the `for tp in range(6)` loop is unrolled). -/
def statsPairs (env : Env) (gene : String) (chain_df : List ChainRow) :
    List (String × ℚ) :=
  let row := modeRow chain_df
  let beta_mode := env.exp row.log_beta
  let delta_mode := env.exp row.log_delta
  let Pzero_mode := row.Pzero
  let model_vals := modelValsOf env gene chain_df
  let MAP_meannorm := meanNormalize model_vals
  let log_betas := chain_df.map ChainRow.log_beta
  let log_deltas := chain_df.map ChainRow.log_delta
  [("beta_mode", beta_mode),
   ("delta_mode", delta_mode),
   ("Pzero_mode", Pzero_mode),
   ("protein model MAP (mean-normalized), V1", MAP_meannorm.getD 0 0),
   ("protein model MAP (scaled to molecules/cell), V1", model_vals.getD 0 0),
   ("protein model MAP (mean-normalized), V2", MAP_meannorm.getD 1 0),
   ("protein model MAP (scaled to molecules/cell), V2", model_vals.getD 1 0),
   ("protein model MAP (mean-normalized), V3", MAP_meannorm.getD 2 0),
   ("protein model MAP (scaled to molecules/cell), V3", model_vals.getD 2 0),
   ("protein model MAP (mean-normalized), V4", MAP_meannorm.getD 3 0),
   ("protein model MAP (scaled to molecules/cell), V4", model_vals.getD 3 0),
   ("protein model MAP (mean-normalized), V5", MAP_meannorm.getD 4 0),
   ("protein model MAP (scaled to molecules/cell), V5", model_vals.getD 4 0),
   ("protein model MAP (mean-normalized), V6", MAP_meannorm.getD 5 0),
   ("protein model MAP (scaled to molecules/cell), V6", model_vals.getD 5 0),
   ("beta_HDI95_left", env.exp (HDI log_betas (95/100)).1),
   ("beta_HDI95_right", env.exp (HDI log_betas (95/100)).2),
   ("delta_HDI95_left", env.exp (HDI log_deltas (95/100)).1),
   ("delta_HDI95_right", env.exp (HDI log_deltas (95/100)).2),
   ("beta_HDI68_left", env.exp (HDI log_betas (68/100)).1),
   ("beta_HDI68_right", env.exp (HDI log_betas (68/100)).2),
   ("delta_HDI68_left", env.exp (HDI log_deltas (68/100)).1),
   ("delta_HDI68_right", env.exp (HDI log_deltas (68/100)).2),
   ("beta_p16", env.exp (percentileQ log_betas 16)),
   ("beta_p50", env.exp (percentileQ log_betas 50)),
   ("beta_p84", env.exp (percentileQ log_betas 84)),
   ("delta_p16", env.exp (percentileQ log_deltas 16)),
   ("delta_p50", env.exp (percentileQ log_deltas 50)),
   ("delta_p84", env.exp (percentileQ log_deltas 84))]

/-- `res_dict[k] = v` on an ordered association list: overwrite the entry in place
when the key exists (a Python dict keeps the original insertion position),
otherwise append a new entry at the end. -/
def dictInsert : List (String × ℚ) → String → ℚ → List (String × ℚ)
  | [], k, v => [(k, v)]
  | kv :: d, k, v => if kv.1 == k then (k, v) :: d else kv :: dictInsert d k v

/-- `for modval in pp_df.index: res_dict[modval] = pp_df.loc[modval]['value']`. -/
def insertAll (d : List (String × ℚ)) (ps : List (String × ℚ)) : List (String × ℚ) :=
  ps.foldl (fun acc kv => dictInsert acc kv.1 kv.2) d

/-- The outcome of one iteration of the extraction loop for one gene: the assembled
`res_dict` and the `odeint` calls the iteration performed. -/
structure GeneResult where
  record : List (String × ℚ)
  odeCalls : List OdeCall
deriving DecidableEq

/-- The body of the extraction loop for one chain file: read the chain table and the
gene's posterior-predictive table (a missing file raises), compute the statistics
and assemble `res_dict`.  `argmax` of an empty `log_prob` column also raises.
(The notebook also evaluates `P_data.loc[gene]` into `protein_vals`, which is dead
code — the variable is never used — and is not modelled.) -/
def extractGene (env : Env) (chain_file : String) : Except String GeneResult :=
  match env.chainCsv (MC_folder ++ chain_file) with
  | none => .error (MC_folder ++ chain_file)
  | some chain_df =>
    match env.ppCsv (ppPath (geneOf chain_file)) with
    | none => .error (ppPath (geneOf chain_file))
    | some pp_df =>
      match chain_df with
      | [] => .error "attempt to get argmax of an empty sequence"
      | _ :: _ =>
        .ok { record := insertAll (statsPairs env (geneOf chain_file) chain_df) pp_df
              odeCalls := [odeCallOf env (geneOf chain_file) chain_df] }

/-- The list `[x[1] for x in list(res_dict.items())]` for one chain file
(meaningful when `extractGene` succeeds). -/
def valuesOf (env : Env) (chain_file : String) : List ℚ :=
  match extractGene env chain_file with
  | .ok gr => gr.record.map Prod.snd
  | .error _ => []

/-- The key list `[x[0] for x in list(res_dict.items())]` for one chain file
(meaningful when `extractGene` succeeds). -/
def recordKeysOf (env : Env) (chain_file : String) : List String :=
  match extractGene env chain_file with
  | .ok gr => gr.record.map Prod.fst
  | .error _ => []

/-- The full `res_dict` for one chain file (meaningful when `extractGene`
succeeds). -/
def recordOf (env : Env) (chain_file : String) : List (String × ℚ) :=
  match extractGene env chain_file with
  | .ok gr => gr.record
  | .error _ => []

/-- The number of entries of `res_dict` for one chain file, when the extraction of
that gene succeeds. -/
def recordLen (env : Env) (chain_file : String) : Option ℕ :=
  match extractGene env chain_file with
  | .ok gr => some gr.record.length
  | .error _ => none

/-- The sequential loop over the chain files.  Each iteration writes
`res_array[i, :] = [x[1] for x in list(res_dict.items())]` into the pre-allocated
`np.zeros((len(MC_chain_list), 54))`, which raises a broadcast error unless the
record has exactly 54 entries.  Returns the rows, `gene_list`, and the `res_dict`
of the last processed gene (which leaks out of the Python `for` loop). -/
def extractRows (env : Env) :
    List String → Except String (List (List ℚ) × List String × List (String × ℚ))
  | [] => .ok ([], [], [])
  | f :: fs =>
    match extractGene env f with
    | .error e => .error e
    | .ok gr =>
      if (gr.record.map Prod.snd).length = 54 then
        match extractRows env fs with
        | .error e => .error e
        | .ok (rows, genes, lastDict) =>
          .ok ((gr.record.map Prod.snd) :: rows, geneOf f :: genes,
               if fs.isEmpty then gr.record else lastDict)
      else .error "could not broadcast input array"

/-- The column order of `res_df.sort_index(axis=1)`: the value names of the last
gene's `res_dict` paired with their positions, stably sorted by name. -/
def colOrder (names : List String) : List (String × ℕ) :=
  List.insertionSort (fun a b => a.1 ≤ b.1) (names.zip (List.range names.length))

/-- The file written by `res_df.to_csv`: path, sorted column labels, row index
(`gene_list`), and the rows, each reordered into sorted-column order. -/
structure RunOutput where
  path : String
  columns : List String
  index : List String
  rows : List (List ℚ)
deriving DecidableEq

/-- `'extracted_results/MCMC_result_collection.csv'`. -/
def outPathName : String := "extracted_results/MCMC_result_collection.csv"

/-- The whole of notebook cell B: run the loop over `chainList`, then build the
DataFrame with `columns=value_names` (from the last gene's `res_dict`),
`index=gene_list`, sort the columns, and write the CSV.  When the chain list is
empty the loop never runs and `value_names = [x[0] for x in list(res_dict.items())]`
raises a `NameError` (`res_dict` was never defined), so nothing is written. -/
def runExtraction (env : Env) : Except String RunOutput :=
  match extractRows env (chainList env) with
  | .error e => .error e
  | .ok (rows, genes, lastDict) =>
    match lastDict with
    | [] => .error "name res_dict is not defined"
    | _ :: _ =>
      let value_names := lastDict.map Prod.fst
      let order := colOrder value_names
      .ok { path := outPathName
            columns := order.map Prod.fst
            index := genes
            rows := rows.map (fun r => order.map (fun p => r.getD p.2 0)) }

/-! ### Concrete environments used to instantiate the theorems

`envW` is a well-formed two-gene environment (note that the two genes carry
posterior-predictive tables with *different* row labels); `envEmpty` has no files;
`envMissing` lists a chain file whose posterior-predictive file is absent;
`envShort` has a posterior-predictive table with too few rows for the 54-column
result array. -/

/-- A 25-row posterior-predictive table with labels `a0`, ..., `a24`. -/
def ppA : List (String × ℚ) := (List.range 25).map (fun i => ("a" ++ toString i, (i : ℚ)))

/-- A 25-row posterior-predictive table with labels `b0`, ..., `b24`. -/
def ppB : List (String × ℚ) := (List.range 25).map (fun i => ("b" ++ toString i, (i : ℚ)))

/-- A two-row chain table. -/
def chainA : List ChainRow := [⟨1, 2, 3, 4⟩, ⟨5, 6, 7, 8⟩]

/-- A one-row chain table. -/
def chainB : List ChainRow := [⟨9, 1, 2, 3⟩]

/-- A well-formed environment with genes `Abc` and `Xyz`, a directory entry that is
not a regular file, and a file that matches neither suffix. -/
def envW : Env :=
  { entries := [⟨"Xyz_chain_sample.csv", true⟩, ⟨"Abc_chain_sample.csv", true⟩,
                ⟨"Abc_posterior_predictive_results.csv", true⟩,
                ⟨"Xyz_posterior_predictive_results.csv", true⟩,
                ⟨"subdir_chain_sample.csv", false⟩, ⟨"notes.txt", true⟩]
    chainCsv := fun p =>
      if p = "RESULTS/MCMC_results/Abc_chain_sample.csv" then some chainA
      else if p = "RESULTS/MCMC_results/Xyz_chain_sample.csv" then some chainB
      else none
    ppCsv := fun p =>
      if p = "RESULTS/MCMC_results/Abc_posterior_predictive_results.csv" then some ppA
      else if p = "RESULTS/MCMC_results/Xyz_posterior_predictive_results.csv" then some ppB
      else none
    exp := fun x => x
    odeSolve := fun _ _ _ _ _ => [1, 2, 3, 4, 5, 9] }

/-- The run output of `envW` (meaningful because that run succeeds). -/
def outW : RunOutput :=
  match runExtraction envW with
  | .ok o => o
  | .error _ => ⟨"", [], [], []⟩

/-- The extraction result for gene `Abc` in `envW`. -/
def grA : GeneResult :=
  match extractGene envW "Abc_chain_sample.csv" with
  | .ok g => g
  | .error _ => ⟨[], []⟩

/-- The extraction result for gene `Xyz` in `envW`. -/
def grX : GeneResult :=
  match extractGene envW "Xyz_chain_sample.csv" with
  | .ok g => g
  | .error _ => ⟨[], []⟩

/-- An environment whose MCMC results folder is empty. -/
def envEmpty : Env :=
  { entries := []
    chainCsv := fun _ => none
    ppCsv := fun _ => none
    exp := fun x => x
    odeSolve := fun _ _ _ _ _ => [] }

/-- An environment that lists a chain file whose gene has no posterior-predictive
file. -/
def envMissing : Env :=
  { entries := [⟨"Abc_chain_sample.csv", true⟩]
    chainCsv := fun p =>
      if p = "RESULTS/MCMC_results/Abc_chain_sample.csv" then some chainA else none
    ppCsv := fun _ => none
    exp := fun x => x
    odeSolve := fun _ _ _ _ _ => [1, 2, 3, 4, 5, 9] }

/-- An environment whose single gene has a 3-row posterior-predictive table, so its
record has 32 entries instead of 54. -/
def envShort : Env :=
  { entries := [⟨"Abc_chain_sample.csv", true⟩, ⟨"Abc_posterior_predictive_results.csv", true⟩]
    chainCsv := fun p =>
      if p = "RESULTS/MCMC_results/Abc_chain_sample.csv" then some chainA else none
    ppCsv := fun p =>
      if p = "RESULTS/MCMC_results/Abc_posterior_predictive_results.csv" then
        some [("x", 1), ("y", 2), ("z", 3)]
      else none
    exp := fun x => x
    odeSolve := fun _ _ _ _ _ => [1, 2, 3, 4, 5, 9] }

/-! ### Generic fold lemmas for `argmaxIdx` and `argminRange` -/

theorem foldMax_ge_init (xs : List ℚ) (l : List ℕ) (b : ℕ) :
    xs.getD b 0 ≤
      xs.getD (l.foldl (fun best i => if xs.getD best 0 < xs.getD i 0 then i else best) b) 0 := by
  induction l generalizing b with
  | nil => exact le_refl _
  | cons k l ih =>
    simp only [List.foldl_cons]
    by_cases h : xs.getD b 0 < xs.getD k 0
    · simp only [h, if_pos]
      exact le_trans h.le (ih k)
    · simp only [h, if_neg, not_false_iff]
      exact ih b

theorem foldMax_ge_mem (xs : List ℚ) (l : List ℕ) (b : ℕ) (j : ℕ) (hj : j ∈ l) :
    xs.getD j 0 ≤
      xs.getD (l.foldl (fun best i => if xs.getD best 0 < xs.getD i 0 then i else best) b) 0 := by
  induction l generalizing b with
  | nil => cases hj
  | cons k l ih =>
    simp only [List.foldl_cons]
    rcases List.mem_cons.mp hj with rfl | hj
    · by_cases h : xs.getD b 0 < xs.getD j 0
      · simp only [h, if_pos]
        exact foldMax_ge_init xs l j
      · simp only [h, if_neg, not_false_iff]
        exact le_trans (not_lt.mp h) (foldMax_ge_init xs l b)
    · by_cases h : xs.getD b 0 < xs.getD k 0 <;> simp only [h, if_pos, if_neg, not_false_iff]
      · exact ih k hj
      · exact ih b hj

theorem foldMax_mem (xs : List ℚ) (l : List ℕ) (b : ℕ) :
    (l.foldl (fun best i => if xs.getD best 0 < xs.getD i 0 then i else best) b) = b ∨
      (l.foldl (fun best i => if xs.getD best 0 < xs.getD i 0 then i else best) b) ∈ l := by
  induction l generalizing b with
  | nil => exact Or.inl rfl
  | cons k l ih =>
    simp only [List.foldl_cons]
    by_cases h : xs.getD b 0 < xs.getD k 0 <;> simp only [h, if_pos, if_neg, not_false_iff]
    · rcases ih k with h' | h'
      · exact Or.inr (by rw [h']; exact List.mem_cons_self k l)
      · exact Or.inr (List.mem_cons_of_mem _ h')
    · rcases ih b with h' | h'
      · exact Or.inl h'
      · exact Or.inr (List.mem_cons_of_mem _ h')

/-- `np.argmax` returns an index of the list (first maximal index), for a nonempty
list. -/
theorem argmaxIdx_lt (xs : List ℚ) (h : xs ≠ []) : argmaxIdx xs < xs.length := by
  have hlen : 0 < xs.length := List.length_pos.mpr h
  rcases foldMax_mem xs (List.range xs.length) 0 with h' | h'
  · rw [argmaxIdx, h']
    exact hlen
  · exact List.mem_range.mp h'

/-- The value at `argmaxIdx` dominates every entry of the list. -/
theorem argmaxIdx_spec (xs : List ℚ) (j : ℕ) (hj : j < xs.length) :
    xs.getD j 0 ≤ xs.getD (argmaxIdx xs) 0 :=
  foldMax_ge_mem xs (List.range xs.length) 0 j (List.mem_range.mpr hj)

theorem foldMin_le_init (w : ℕ → ℚ) (l : List ℕ) (b : ℕ) :
    w (argminRange w l b) ≤ w b := by
  induction l generalizing b with
  | nil => exact le_refl _
  | cons k l ih =>
    simp only [argminRange, List.foldl_cons]
    by_cases h : w k < w b
    · simp only [h, if_pos]
      exact le_trans (ih k) h.le
    · simp only [h, if_neg, not_false_iff]
      exact ih b

theorem foldMin_le_mem (w : ℕ → ℚ) (l : List ℕ) (b : ℕ) (j : ℕ) (hj : j ∈ l) :
    w (argminRange w l b) ≤ w j := by
  induction l generalizing b with
  | nil => cases hj
  | cons k l ih =>
    simp only [argminRange, List.foldl_cons]
    rcases List.mem_cons.mp hj with rfl | hj
    · by_cases h : w j < w b
      · simp only [h, if_pos]
        exact foldMin_le_init w l j
      · simp only [h, if_neg, not_false_iff]
        exact le_trans (foldMin_le_init w l b) (not_lt.mp h)
    · by_cases h : w k < w b <;> simp only [h, if_pos, if_neg, not_false_iff]
      · exact ih k hj
      · exact ih b hj

theorem foldMin_mem (w : ℕ → ℚ) (l : List ℕ) (b : ℕ) :
    argminRange w l b = b ∨ argminRange w l b ∈ l := by
  induction l generalizing b with
  | nil => exact Or.inl rfl
  | cons k l ih =>
    simp only [argminRange, List.foldl_cons]
    by_cases h : w k < w b <;> simp only [h, if_pos, if_neg, not_false_iff]
    · rcases ih k with h' | h'
      · exact Or.inr (by rw [argminRange] at h'; rw [h']; exact List.mem_cons_self k l)
      · exact Or.inr (List.mem_cons_of_mem _ h')
    · rcases ih b with h' | h'
      · exact Or.inl h'
      · exact Or.inr (List.mem_cons_of_mem _ h')

/-! ### Ordered-association-list (`res_dict`) lemmas -/

theorem lookup_dictInsert_self (d : List (String × ℚ)) (k : String) (v : ℚ) :
    List.lookup k (dictInsert d k v) = some v := by
  induction d with
  | nil => simp [dictInsert, List.lookup]
  | cons kv d ih =>
    rw [dictInsert]
    by_cases h : kv.1 = k
    · rw [if_pos (beq_iff_eq.mpr h)]
      simp [List.lookup]
    · rw [if_neg (by simp [beq_false_of_ne h])]
      have hb : (k == kv.1) = false := beq_false_of_ne (Ne.symm h)
      simp only [List.lookup, hb]
      exact ih

theorem lookup_dictInsert_ne (d : List (String × ℚ)) (k k' : String) (v : ℚ)
    (h : k' ≠ k) : List.lookup k (dictInsert d k' v) = List.lookup k d := by
  induction d with
  | nil => simp [dictInsert, List.lookup, beq_false_of_ne (Ne.symm h)]
  | cons kv d ih =>
    rw [dictInsert]
    by_cases hk : kv.1 = k'
    · rw [if_pos (beq_iff_eq.mpr hk)]
      have hb : (k == k') = false := beq_false_of_ne (Ne.symm h)
      have hb2 : (k == kv.1) = false := by rw [hk]; exact hb
      simp only [List.lookup, hb, hb2]
    · rw [if_neg (by simp [beq_false_of_ne hk])]
      by_cases hkk : k = kv.1
      · simp [List.lookup, beq_iff_eq.mpr hkk]
      · have hb2 : (k == kv.1) = false := beq_false_of_ne hkk
        simp only [List.lookup, hb2]
        exact ih

theorem keys_dictInsert (d : List (String × ℚ)) (k : String) (v : ℚ) :
    (dictInsert d k v).map Prod.fst = d.map Prod.fst ∨
      (dictInsert d k v).map Prod.fst = d.map Prod.fst ++ [k] := by
  induction d with
  | nil => exact Or.inr rfl
  | cons kv d ih =>
    rw [dictInsert]
    by_cases h : kv.1 = k
    · rw [if_pos (beq_iff_eq.mpr h)]
      exact Or.inl (by simp [h])
    · rw [if_neg (by simp [beq_false_of_ne h])]
      rcases ih with h' | h'
      · exact Or.inl (by simp [h'])
      · exact Or.inr (by simp [h'])

theorem keys_insertAll_extend (ps : List (String × ℚ)) (d : List (String × ℚ)) :
    ∃ t, (insertAll d ps).map Prod.fst = d.map Prod.fst ++ t := by
  induction ps generalizing d with
  | nil => exact ⟨[], by simp [insertAll]⟩
  | cons kv ps ih =>
    rw [insertAll, List.foldl_cons]
    rcases ih (dictInsert d kv.1 kv.2) with ⟨t, ht⟩
    rw [insertAll] at ht
    rcases keys_dictInsert d kv.1 kv.2 with h' | h'
    · exact ⟨t, by rw [ht, h']⟩
    · exact ⟨[kv.1] ++ t, by rw [ht, h', List.append_assoc]⟩

theorem lookup_insertAll_not_mem (ps : List (String × ℚ)) (d : List (String × ℚ))
    (k : String) (h : k ∉ ps.map Prod.fst) :
    List.lookup k (insertAll d ps) = List.lookup k d := by
  induction ps generalizing d with
  | nil => rfl
  | cons kv ps ih =>
    simp only [List.map_cons, List.mem_cons, not_or] at h
    rw [insertAll, List.foldl_cons]
    have := ih (dictInsert d kv.1 kv.2) h.2
    rw [insertAll] at this
    rw [this, lookup_dictInsert_ne d k kv.1 kv.2 (fun he => h.1 he.symm)]

theorem lookup_insertAll_mem (ps : List (String × ℚ)) (d : List (String × ℚ))
    (k : String) (v : ℚ) (hnd : (ps.map Prod.fst).Nodup) (hm : (k, v) ∈ ps) :
    List.lookup k (insertAll d ps) = some v := by
  induction ps generalizing d with
  | nil => cases hm
  | cons kv ps ih =>
    simp only [List.map_cons, List.nodup_cons] at hnd
    rw [insertAll, List.foldl_cons]
    rcases List.mem_cons.mp hm with rfl | hm
    · have : k ∉ ps.map Prod.fst := hnd.1
      have h2 := lookup_insertAll_not_mem ps (dictInsert d k v) k this
      rw [insertAll] at h2
      rw [h2, lookup_dictInsert_self]
    · have h2 := ih (dictInsert d kv.1 kv.2) hnd.2 hm
      rw [insertAll] at h2
      exact h2

/-! ### Sorted-list and counting lemmas for the HDI specification -/

theorem sortAsc_sorted (xs : List ℚ) : (sortAsc xs).Sorted (fun a b : ℚ => a ≤ b) :=
  List.sorted_insertionSort _ xs

theorem sortAsc_perm (xs : List ℚ) : (sortAsc xs).Perm xs :=
  List.perm_insertionSort _ xs

theorem sortAsc_length (xs : List ℚ) : (sortAsc xs).length = xs.length :=
  (sortAsc_perm xs).length_eq

theorem sorted_getD_mono (s : List ℚ) (hs : s.Sorted (fun a b : ℚ => a ≤ b))
    (i j : ℕ) (hij : i ≤ j) (hj : j < s.length) : s.getD i 0 ≤ s.getD j 0 := by
  have hi : i < s.length := lt_of_le_of_lt hij hj
  rw [List.getD_eq_getElem s 0 hi, List.getD_eq_getElem s 0 hj]
  exact hs.rel_get_of_le (a := ⟨i, hi⟩) (b := ⟨j, hj⟩) hij

theorem countP_eq_length_takeWhile (p : ℚ → Bool) (s : List ℚ)
    (hs : s.Sorted (fun a b : ℚ => a ≤ b))
    (hdown : ∀ x y : ℚ, x ≤ y → p y = true → p x = true) :
    s.countP p = (s.takeWhile p).length := by
  induction s with
  | nil => rfl
  | cons x t ih =>
    obtain ⟨hx, ht⟩ := List.sorted_cons.mp hs
    by_cases hpx : p x = true
    · rw [List.countP_cons_of_pos p t hpx, List.takeWhile_cons_of_pos hpx,
        List.length_cons, ih ht]
    · rw [List.countP_cons_of_neg p t (by simp [hpx]),
        List.takeWhile_cons_of_neg (by simp [hpx])]
      simp only [List.length_nil]
      rw [List.countP_eq_zero]
      intro y hy hpy
      exact hpx (hdown x y (hx y hy) hpy)

theorem takeWhile_getD_prop (p : ℚ → Bool) (s : List ℚ) :
    ∀ i, i < (s.takeWhile p).length → p (s.getD i 0) = true := by
  induction s with
  | nil =>
    intro i h
    simp at h
  | cons x t ih =>
    intro i h
    by_cases hpx : p x = true
    · rw [List.takeWhile_cons_of_pos hpx, List.length_cons] at h
      cases i with
      | zero => simpa [List.getD] using hpx
      | succ i =>
        rw [List.getD_cons_succ]
        exact ih i (Nat.lt_of_succ_lt_succ h)
    · rw [List.takeWhile_cons_of_neg (by simp [hpx])] at h
      simp at h

theorem takeWhile_stop (p : ℚ → Bool) (s : List ℚ) :
    (s.takeWhile p).length < s.length →
      p (s.getD (s.takeWhile p).length 0) = false := by
  induction s with
  | nil =>
    intro h
    simp at h
  | cons x t ih =>
    intro h
    by_cases hpx : p x = true
    · rw [List.takeWhile_cons_of_pos hpx, List.length_cons] at h ⊢
      rw [List.getD_cons_succ]
      exact ih (Nat.lt_of_succ_lt_succ h)
    · have hpx' : p x = false := by
        cases hpb : p x
        · rfl
        · exact absurd hpb hpx
      rw [List.takeWhile_cons_of_neg (by simp [hpx])]
      simpa [List.getD] using hpx'

theorem countP_and_not_add (p q : ℚ → Bool) (s : List ℚ)
    (himp : ∀ x, q x = true → p x = true) :
    s.countP (fun x => p x && !q x) + s.countP q = s.countP p := by
  induction s with
  | nil => rfl
  | cons x t ih =>
    by_cases hq : q x = true
    · rw [List.countP_cons_of_pos q t hq, List.countP_cons_of_pos p t (himp x hq),
        List.countP_cons_of_neg _ t (by simp [hq])]
      omega
    · have hq' : q x = false := by simp at hq; exact hq
      by_cases hp : p x = true
      · rw [List.countP_cons_of_neg q t (by simp [hq']),
          List.countP_cons_of_pos p t hp,
          List.countP_cons_of_pos _ t (by simp [hq', hp])]
        omega
      · have hp' : p x = false := by simp at hp; exact hp
        rw [List.countP_cons_of_neg q t (by simp [hq']),
          List.countP_cons_of_neg p t (by simp [hp']),
          List.countP_cons_of_neg _ t (by simp [hp'])]
        omega

theorem window_contains (s : List ℚ) (hs : s.Sorted (fun a b : ℚ => a ≤ b))
    (k m : ℕ) (hm : 1 ≤ m) (hkm : k + m ≤ s.length) :
    m ≤ s.countP (fun x => decide (s.getD k 0 ≤ x) && decide (x ≤ s.getD (k + m - 1) 0)) := by
  have htlen : ((s.drop k).take m).length = m := by
    rw [List.length_take, List.length_drop]
    omega
  have htsub : ((s.drop k).take m).Sublist s :=
    (List.take_sublist m (s.drop k)).trans (List.drop_sublist k s)
  have hmem : ∀ x ∈ (s.drop k).take m,
      (decide (s.getD k 0 ≤ x) && decide (x ≤ s.getD (k + m - 1) 0)) = true := by
    intro x hx
    obtain ⟨j, hj, hget⟩ := List.getElem_of_mem hx
    have hj' : j < m := htlen ▸ hj
    have hjs : k + j < s.length := by omega
    have hx1 : x = s.getD (k + j) 0 := by
      rw [← hget, List.getElem_take, List.getElem_drop, List.getD_eq_getElem s 0 hjs]
    have h1 : s.getD k 0 ≤ s.getD (k + j) 0 :=
      sorted_getD_mono s hs k (k + j) (Nat.le_add_right k j) (by omega)
    have h2 : s.getD (k + j) 0 ≤ s.getD (k + m - 1) 0 :=
      sorted_getD_mono s hs (k + j) (k + m - 1) (by omega) (by omega)
    rw [hx1]
    simp only [Bool.and_eq_true, decide_eq_true_eq]
    exact ⟨h1, h2⟩
  have hceq : ((s.drop k).take m).countP
      (fun x => decide (s.getD k 0 ≤ x) && decide (x ≤ s.getD (k + m - 1) 0)) =
      ((s.drop k).take m).length := List.countP_eq_length.mpr hmem
  calc m = ((s.drop k).take m).length := htlen.symm
    _ = _ := hceq.symm
    _ ≤ _ := htsub.countP_le _

theorem interval_window (s : List ℚ) (hs : s.Sorted (fun a b : ℚ => a ≤ b))
    (a b : ℚ) (hab : a ≤ b) (m : ℕ) (hm : 1 ≤ m)
    (hcount : m ≤ s.countP (fun x => decide (a ≤ x) && decide (x ≤ b))) :
    ∃ k, k + m ≤ s.length ∧ a ≤ s.getD k 0 ∧ s.getD (k + m - 1) 0 ≤ b := by
  set j := (s.takeWhile (fun x => decide (x < a))).length with hj
  set h := (s.takeWhile (fun x => decide (x ≤ b))).length with hh
  have hcq : s.countP (fun x => decide (x < a)) = j :=
    countP_eq_length_takeWhile _ s hs
      (fun x y hxy hy => by
        simp only [decide_eq_true_eq] at hy ⊢
        exact lt_of_le_of_lt hxy hy)
  have hcp : s.countP (fun x => decide (x ≤ b)) = h :=
    countP_eq_length_takeWhile _ s hs
      (fun x y hxy hy => by
        simp only [decide_eq_true_eq] at hy ⊢
        exact le_trans hxy hy)
  have hsplit := countP_and_not_add (fun x => decide (x ≤ b)) (fun x => decide (x < a)) s
    (fun x hx => by
      simp only [decide_eq_true_eq] at hx ⊢
      exact le_trans hx.le hab)
  have hcongr : s.countP (fun x => decide (x ≤ b) && !decide (x < a)) =
      s.countP (fun x => decide (a ≤ x) && decide (x ≤ b)) := by
    apply List.countP_congr
    intro x _
    simp only [Bool.and_eq_true, Bool.not_eq_true', decide_eq_true_eq, decide_eq_false_iff_not,
      not_lt]
    tauto
  rw [hcongr, hcq, hcp] at hsplit
  have hhj : s.countP (fun x => decide (a ≤ x) && decide (x ≤ b)) + j = h := hsplit
  have hhs : h ≤ s.length := (List.takeWhile_sublist _).length_le
  refine ⟨j, by omega, ?_, ?_⟩
  · have hjlt : j < s.length := by omega
    have := takeWhile_stop (fun x => decide (x < a)) s (by rw [← hj]; omega)
    rw [← hj] at this
    simp only [decide_eq_false_iff_not, not_lt] at this
    exact this
  · have hlt : j + m - 1 < h := by omega
    have := takeWhile_getD_prop (fun x => decide (x ≤ b)) s (j + m - 1) (by rw [← hh]; omega)
    simpa using this

theorem hdiCount_eq (p : ℚ) (n : ℕ) (hp0 : 0 < p) (hp1 : p ≤ 1) (hn : 1 ≤ n) :
    hdiCount p n = Int.toNat ⌈p * (n : ℚ)⌉ ∧ 1 ≤ hdiCount p n ∧ hdiCount p n ≤ n ∧
      p * (n : ℚ) ≤ (hdiCount p n : ℚ) := by
  have hpos : (0 : ℚ) < p * n := by
    apply mul_pos hp0
    exact_mod_cast hn
  have hceil1 : (1 : ℤ) ≤ ⌈p * (n : ℚ)⌉ := by
    rw [Int.le_ceil_iff]
    simpa using hpos
  have hceiln : ⌈p * (n : ℚ)⌉ ≤ n := by
    apply Int.ceil_le.mpr
    push_cast
    calc p * n ≤ 1 * n := by
          apply mul_le_mul_of_nonneg_right hp1
          positivity
      _ = n := one_mul _
  have htn1 : 1 ≤ Int.toNat ⌈p * (n : ℚ)⌉ := by omega
  have htnn : Int.toNat ⌈p * (n : ℚ)⌉ ≤ n := by omega
  have hm : hdiCount p n = Int.toNat ⌈p * (n : ℚ)⌉ := by
    rw [hdiCount, max_eq_right htn1, min_eq_right htnn]
  refine ⟨hm, by omega, by omega, ?_⟩
  rw [hm]
  calc p * (n : ℚ) ≤ ((⌈p * (n : ℚ)⌉ : ℤ) : ℚ) := Int.le_ceil _
    _ ≤ _ := by exact_mod_cast Int.self_le_toNat _

/-- The full specification of the spec-modelled `HDI`: its endpoints are ordered,
the interval holds at least mass `p` of the samples, and no interval holding mass
`p` is narrower. -/
theorem hdi_spec (samples : List ℚ) (p : ℚ) (hne : samples ≠ []) (hp0 : 0 < p)
    (hp1 : p ≤ 1) :
    (HDI samples p).1 ≤ (HDI samples p).2 ∧
    p * (samples.length : ℚ) ≤ (inCount (HDI samples p).1 (HDI samples p).2 samples : ℚ) ∧
    (∀ a b : ℚ, a ≤ b → p * (samples.length : ℚ) ≤ (inCount a b samples : ℚ) →
      (HDI samples p).2 - (HDI samples p).1 ≤ b - a) := by
  have hs := sortAsc_sorted samples
  have hperm := sortAsc_perm samples
  have hlen := sortAsc_length samples
  set s := sortAsc samples with hsdef
  have hn : 1 ≤ s.length := by
    rw [hlen]
    exact List.length_pos.mpr hne
  obtain ⟨hmeq, hm1, hmn, hmp⟩ := hdiCount_eq p s.length hp0 hp1 hn
  set m := hdiCount p s.length with hmdef
  set w : ℕ → ℚ := fun k => s.getD (k + m - 1) 0 - s.getD k 0 with hwdef
  set k0 := argminRange w (List.range (s.length - m + 1)) 0 with hk0def
  have hk0 : k0 ≤ s.length - m := by
    rcases foldMin_mem w (List.range (s.length - m + 1)) 0 with h | h
    · omega
    · have := List.mem_range.mp h
      omega
  have hk0m : k0 + m ≤ s.length := by omega
  have hHDI : HDI samples p = (s.getD k0 0, s.getD (k0 + m - 1) 0) := rfl
  have hcount_transfer : ∀ a b : ℚ, inCount a b samples =
      s.countP (fun x => decide (a ≤ x) && decide (x ≤ b)) := by
    intro a b
    rw [inCount]
    exact (hperm.countP_eq _).symm
  have hwk0 : ∀ k, k ≤ s.length - m → w k0 ≤ w k := by
    intro k hk
    exact foldMin_le_mem w _ 0 k (List.mem_range.mpr (by omega))
  refine ⟨?_, ?_, ?_⟩
  · rw [hHDI]
    exact sorted_getD_mono s hs k0 (k0 + m - 1) (by omega) (by omega)
  · rw [hHDI]
    dsimp only
    rw [hcount_transfer]
    have hwin := window_contains s hs k0 m hm1 hk0m
    calc p * (samples.length : ℚ) = p * (s.length : ℚ) := by rw [hlen]
      _ ≤ (m : ℚ) := hmp
      _ ≤ _ := by exact_mod_cast hwin
  · intro a b hab hc
    rw [hHDI]
    dsimp only
    rw [hcount_transfer] at hc
    have hcm : m ≤ s.countP (fun x => decide (a ≤ x) && decide (x ≤ b)) := by
      have h1 : p * (s.length : ℚ) ≤
          (s.countP (fun x => decide (a ≤ x) && decide (x ≤ b)) : ℚ) := by
        rw [← hlen] at hc
        exact hc
      rw [hmeq]
      have h2 : ⌈p * (s.length : ℚ)⌉ ≤
          (s.countP (fun x => decide (a ≤ x) && decide (x ≤ b)) : ℤ) := by
        apply Int.ceil_le.mpr
        push_cast
        exact h1
      omega
    obtain ⟨k, hkm, hka, hkb⟩ := interval_window s hs a b hab m hm1 hcm
    have hw : w k0 ≤ w k := hwk0 k (by omega)
    rw [hwdef] at hw
    dsimp only at hw
    calc s.getD (k0 + m - 1) 0 - s.getD k0 0 ≤ s.getD (k + m - 1) 0 - s.getD k 0 := hw
      _ ≤ b - a := sub_le_sub hkb hka

/-! ### Structure of one loop iteration and of the whole loop -/

theorem statsPairs_keys (env : Env) (gene : String) (chain_df : List ChainRow) :
    (statsPairs env gene chain_df).map Prod.fst = statKeys := rfl

theorem extractGene_ok_elim (env : Env) (f : String) (gr : GeneResult)
    (h : extractGene env f = .ok gr) :
    ∃ chain_df pp_df, env.chainCsv (MC_folder ++ f) = some chain_df ∧
      env.ppCsv (ppPath (geneOf f)) = some pp_df ∧ chain_df ≠ [] ∧
      gr.record = insertAll (statsPairs env (geneOf f) chain_df) pp_df ∧
      gr.odeCalls = [odeCallOf env (geneOf f) chain_df] := by
  unfold extractGene at h
  split at h
  · cases h
  · rename_i chain_df hc
    split at h
    · cases h
    · rename_i pp_df hp
      split at h
      · cases h
      · rename_i r rs
        cases h
        exact ⟨r :: rs, pp_df, hc, hp, by simp, rfl, rfl⟩

theorem valuesOf_eq (env : Env) (f : String) (gr : GeneResult)
    (h : extractGene env f = .ok gr) : valuesOf env f = gr.record.map Prod.snd := by
  rw [valuesOf, h]

theorem recordOf_eq (env : Env) (f : String) (gr : GeneResult)
    (h : extractGene env f = .ok gr) : recordOf env f = gr.record := by
  rw [recordOf, h]

theorem recordKeysOf_eq (env : Env) (f : String) (gr : GeneResult)
    (h : extractGene env f = .ok gr) : recordKeysOf env f = gr.record.map Prod.fst := by
  rw [recordKeysOf, h]

theorem recordLen_eq (env : Env) (f : String) (gr : GeneResult)
    (h : extractGene env f = .ok gr) : recordLen env f = some gr.record.length := by
  rw [recordLen, h]

/-- What a successful run of the loop guarantees: the gene list is the chain files'
gene prefixes in order, every row is the value list of its chain file's record,
every gene's extraction succeeded with a 54-entry record, and the leaked `res_dict`
is the record of the last chain file. -/
theorem extractRows_ok (env : Env) (fs : List String) :
    ∀ out, extractRows env fs = .ok out →
      out.2.1 = fs.map geneOf ∧ out.1 = fs.map (valuesOf env) ∧
      (∀ f ∈ fs, ∃ gr, extractGene env f = .ok gr ∧ gr.record.length = 54) ∧
      (∀ flast, fs.getLast? = some flast → out.2.2 = recordOf env flast) := by
  induction fs with
  | nil =>
    intro out h
    rw [extractRows] at h
    cases h
    refine ⟨rfl, rfl, by simp, by simp⟩
  | cons f fs ih =>
    intro out h
    rw [extractRows] at h
    split at h
    · cases h
    · rename_i gr hE
      split at h
      · rename_i h54
        split at h
        · cases h
        · rename_i rows genes lastDict hR
          obtain ⟨hg, hv, hall, hlast⟩ := ih (rows, genes, lastDict) hR
          dsimp only at hg hv hlast
          cases h
          refine ⟨?_, ?_, ?_, ?_⟩
          · simp only [List.map_cons]
            rw [hg]
          · simp only [List.map_cons]
            rw [hv, valuesOf_eq env f gr hE]
          · intro g hgm
            rcases List.mem_cons.mp hgm with rfl | hgm
            · exact ⟨gr, hE, by rw [← List.length_map gr.record Prod.snd]; exact h54⟩
            · exact hall g hgm
          · intro flast hfl
            cases fs with
            | nil =>
              simp only [List.getLast?_singleton, Option.some_inj] at hfl
              subst hfl
              simp only [List.isEmpty_nil, if_pos]
              exact (recordOf_eq env _ gr hE).symm
            | cons g gs =>
              rw [List.getLast?_cons_cons] at hfl
              simp only [List.isEmpty_cons, if_neg, Bool.false_eq_true, not_false_iff]
              exact hlast flast hfl
      · cases h

/-- Conversely, when every gene's extraction succeeds with a 54-entry record, the
loop completes. -/
theorem extractRows_all_ok (env : Env) (fs : List String)
    (h : ∀ f ∈ fs, ∃ gr, extractGene env f = .ok gr ∧ gr.record.length = 54) :
    ∃ out, extractRows env fs = .ok out := by
  induction fs with
  | nil => exact ⟨([], [], []), rfl⟩
  | cons f fs ih =>
    obtain ⟨gr, hE, h54⟩ := h f (List.mem_cons_self f fs)
    obtain ⟨out', hR⟩ := ih (fun g hg => h g (List.mem_cons_of_mem f hg))
    obtain ⟨rows, genes, last⟩ := out'
    refine ⟨(gr.record.map Prod.snd :: rows, geneOf f :: genes,
      if fs.isEmpty then gr.record else last), ?_⟩
    simp only [extractRows, hE, hR, List.length_map, h54, if_true]

/-- The loop halts at the first gene whose extraction raises: genes after it are
never touched. -/
theorem extractRows_error_at_gene (env : Env) (fs1 : List String) (f : String)
    (e : String)
    (h1 : ∀ g ∈ fs1, ∃ gr, extractGene env g = .ok gr ∧ gr.record.length = 54)
    (hf : extractGene env f = .error e) :
    ∀ fs2, extractRows env (fs1 ++ f :: fs2) = .error e := by
  induction fs1 with
  | nil =>
    intro fs2
    simp only [List.nil_append, extractRows, hf]
  | cons g gs ih =>
    intro fs2
    obtain ⟨gr, hE, h54⟩ := h1 g (List.mem_cons_self g gs)
    have ihh := ih (fun x hx => h1 x (List.mem_cons_of_mem g hx)) fs2
    simp only [List.cons_append, extractRows, hE, List.length_map, h54, if_true,
      List.append_eq, ihh]

theorem runExtraction_ok_elim (env : Env) (out : RunOutput)
    (h : runExtraction env = .ok out) :
    ∃ rows genes last, extractRows env (chainList env) = .ok (rows, genes, last) ∧
      last ≠ [] ∧
      out = { path := outPathName
              columns := (colOrder (last.map Prod.fst)).map Prod.fst
              index := genes
              rows := rows.map
                (fun r => (colOrder (last.map Prod.fst)).map (fun p => r.getD p.2 0)) } := by
  rw [runExtraction] at h
  cases hR : extractRows env (chainList env) with
  | error e => rw [hR] at h; cases h
  | ok t =>
    obtain ⟨rows, genes, last⟩ := t
    rw [hR] at h
    cases last with
    | nil => cases h
    | cons kv l =>
      refine ⟨rows, genes, kv :: l, rfl, by simp, ?_⟩
      cases h
      rfl

theorem runExtraction_all_ok (env : Env) (hne : chainList env ≠ [])
    (hok : ∀ f ∈ chainList env, ∃ gr, extractGene env f = .ok gr ∧
      gr.record.length = 54) :
    ∃ out, runExtraction env = .ok out := by
  obtain ⟨t, hR⟩ := extractRows_all_ok env (chainList env) hok
  obtain ⟨rows, genes, last⟩ := t
  obtain ⟨hg, hv, hall, hlast⟩ := extractRows_ok env (chainList env) (rows, genes, last) hR
  obtain ⟨flast, hfl⟩ :=
    Option.isSome_iff_exists.mp (List.getLast?_isSome.mpr hne)
  obtain ⟨gr, hE, h54⟩ := hall flast (List.mem_of_getLast?_eq_some hfl)
  have hlast' : last = gr.record := by
    have := hlast flast hfl
    rwa [recordOf_eq env flast gr hE] at this
  have hlne : last ≠ [] := by
    rw [hlast']
    intro hnil
    rw [hnil] at h54
    cases h54
  rw [runExtraction, hR]
  cases last with
  | nil => exact absurd rfl hlne
  | cons kv l => exact ⟨_, rfl⟩

/-! ### Column sorting (`res_df.sort_index(axis=1)`) lemmas -/

theorem colOrder_perm_pairs (names : List String) :
    (colOrder names).Perm (names.zip (List.range names.length)) :=
  List.perm_insertionSort _ _

theorem colOrder_names_perm (names : List String) :
    ((colOrder names).map Prod.fst).Perm names := by
  have h1 := (colOrder_perm_pairs names).map Prod.fst
  have h2 : (names.zip (List.range names.length)).map Prod.fst = names :=
    List.map_fst_zip names _ (by rw [List.length_range])
  rwa [h2] at h1

theorem colOrder_length (names : List String) :
    (colOrder names).length = names.length := by
  have := (colOrder_names_perm names).length_eq
  rwa [List.length_map] at this

theorem colOrder_sorted (names : List String) :
    ((colOrder names).map Prod.fst).Sorted (fun a b : String => a ≤ b) := by
  haveI h1 : IsTotal (String × ℕ) (fun a b => a.1 ≤ b.1) := ⟨fun a b => le_total a.1 b.1⟩
  haveI h2 : IsTrans (String × ℕ) (fun a b => a.1 ≤ b.1) :=
    ⟨fun _ _ _ hab hbc => le_trans hab hbc⟩
  have hsorted : (colOrder names).Sorted (fun a b : String × ℕ => a.1 ≤ b.1) :=
    List.sorted_insertionSort _ _
  exact List.Pairwise.map Prod.fst (fun a b h => h) hsorted

/-! ### Arithmetic lemmas for the mean normalization -/

theorem sum_map_div (xs : List ℚ) (m : ℚ) :
    (xs.map (fun x => x / m)).sum = xs.sum / m := by
  induction xs with
  | nil => simp
  | cons x t ih =>
    simp only [List.map_cons, List.sum_cons, ih]
    rw [add_div]

theorem lookup_some_mem_keys (d : List (String × ℚ)) (k : String) (v : ℚ)
    (h : List.lookup k d = some v) : k ∈ d.map Prod.fst := by
  induction d with
  | nil => cases h
  | cons kv d ih =>
    by_cases hk : k = kv.1
    · simp [hk]
    · have hb : (k == kv.1) = false := beq_false_of_ne hk
      simp only [List.lookup, hb] at h
      simp only [List.map_cons, List.mem_cons]
      exact Or.inr (ih h)

theorem modeRow_spec (chain_df : List ChainRow) (hne : chain_df ≠ []) :
    ∃ i, ∃ hi : i < chain_df.length, modeRow chain_df = chain_df.get ⟨i, hi⟩ ∧
      ∀ j, ∀ hj : j < chain_df.length,
        (chain_df.get ⟨j, hj⟩).log_prob ≤ (chain_df.get ⟨i, hi⟩).log_prob := by
  have hxne : chain_df.map ChainRow.log_prob ≠ [] := by
    intro h0
    exact hne (List.map_eq_nil_iff.mp h0)
  have hlt := argmaxIdx_lt (chain_df.map ChainRow.log_prob) hxne
  rw [List.length_map] at hlt
  refine ⟨argmaxIdx (chain_df.map ChainRow.log_prob), hlt, ?_, ?_⟩
  · rw [modeRow, List.getD_eq_getElem _ _ hlt]
    rfl
  · intro j hj
    have h := argmaxIdx_spec (chain_df.map ChainRow.log_prob) j
      (by rw [List.length_map]; exact hj)
    rw [List.getD_eq_getElem _ 0 (by rw [List.length_map]; exact hj),
        List.getD_eq_getElem _ 0 (by rw [List.length_map]; exact hlt)] at h
    simpa [List.getElem_map, List.get_eq_getElem] using h

/-! ### The claims -/

/-- C1: for every chain file in the MCMC results folder, the extraction loop
produces exactly one summary record for that gene, containing the MAP point
estimates for beta, delta and Pzero, the 95% and 68% highest-density intervals and
the 16th/50th/84th percentiles for beta and delta, and the simulated 6-point model
trajectory both raw and mean-normalized (the 29 keys of `statKeys`); and all the
records are collected into the single summary table `runExtraction` returns, one
row per chain file, indexed by gene. -/
theorem C1_per_gene_summary_records (env : Env) (out : RunOutput)
    (h : runExtraction env = .ok out) :
    out.index = (chainList env).map geneOf ∧
    out.rows.length = (chainList env).length ∧
    ∀ f ∈ chainList env, ∃ gr, extractGene env f = .ok gr ∧
      ∀ k ∈ statKeys, k ∈ gr.record.map Prod.fst := by
  obtain ⟨rows, genes, last, hR, hlne, hout⟩ := runExtraction_ok_elim env out h
  obtain ⟨hg, hv, hall, hlast⟩ := extractRows_ok env (chainList env) (rows, genes, last) hR
  dsimp only at hg hv hlast
  subst hout
  refine ⟨hg, ?_, ?_⟩
  · simp only [List.length_map, hv]
  · intro f hf
    obtain ⟨gr, hE, h54⟩ := hall f hf
    refine ⟨gr, hE, ?_⟩
    intro k hk
    obtain ⟨cd, pp, hc, hp, hcne, hrec, hode⟩ := extractGene_ok_elim env f gr hE
    rw [hrec]
    obtain ⟨t, hkeys⟩ := keys_insertAll_extend pp (statsPairs env (geneOf f) cd)
    rw [hkeys, statsPairs_keys]
    exact List.mem_append_left t hk

/-- C1 witness: the two-gene environment `envW` runs successfully and satisfies all
the per-gene record guarantees. -/
theorem C1_witness :
    outW.index = (chainList envW).map geneOf ∧
    outW.rows.length = (chainList envW).length ∧
    ∀ f ∈ chainList envW, ∃ gr, extractGene envW f = .ok gr ∧
      ∀ k ∈ statKeys, k ∈ gr.record.map Prod.fst :=
  C1_per_gene_summary_records envW outW (by with_unfolding_all rfl)

/-- C8 counterexample: in an environment with no chain files, every (vacuously all)
enumerated gene is processed successfully, yet no summary table is produced — the
notebook raises a `NameError` at `value_names = [x[0] for x in list(res_dict.items())]`
because the loop never defined `res_dict`.  This refutes the claim as stated, which
promises a written table with one row per enumerated chain file whenever all genes
are processed. -/
theorem C8_counterexample :
    (∀ f ∈ chainList envEmpty, ∃ gr, extractGene envEmpty f = .ok gr ∧
      gr.record.length = 54) ∧
    (∀ out : RunOutput, runExtraction envEmpty ≠ .ok out) := by
  constructor
  · intro f hf
    have hnil : chainList envEmpty = [] := by with_unfolding_all rfl
    rw [hnil] at hf
    cases hf
  · intro out h
    have herr : runExtraction envEmpty = .error "name res_dict is not defined" := by
      with_unfolding_all rfl
    rw [herr] at h
    cases h

/-- C8 (amended): provided at least one chain file is enumerated and every gene is
processed successfully (54-entry record each), the accumulated results are written
as the single tabular flat file `extracted_results/MCMC_result_collection.csv`,
with one row per enumerated chain file and the row index being the gene names in
processing order. -/
theorem C8_summary_table_written (env : Env) (hne : chainList env ≠ [])
    (hok : ∀ f ∈ chainList env, ∃ gr, extractGene env f = .ok gr ∧
      gr.record.length = 54) :
    ∃ out, runExtraction env = .ok out ∧ out.path = outPathName ∧
      out.rows.length = (chainList env).length ∧
      out.index = (chainList env).map geneOf := by
  obtain ⟨out, hrun⟩ := runExtraction_all_ok env hne hok
  obtain ⟨rows, genes, last, hR, hlne, hout⟩ := runExtraction_ok_elim env out hrun
  obtain ⟨hg, hv, hall, hlast⟩ := extractRows_ok env (chainList env) (rows, genes, last) hR
  dsimp only at hg hv hlast
  subst hout
  exact ⟨_, hrun, rfl, by simp only [List.length_map, hv], hg⟩

/-- C8 witness: `envW` has two chain files, both processed successfully, and the
amended theorem yields the written summary table. -/
theorem C8_witness :
    ∃ out, runExtraction envW = .ok out ∧ out.path = outPathName ∧
      out.rows.length = (chainList envW).length ∧
      out.index = (chainList envW).map geneOf :=
  C8_summary_table_written envW (by with_unfolding_all decide)
    (by
      intro f hf
      have hcl : chainList envW = ["Abc_chain_sample.csv", "Xyz_chain_sample.csv"] := by
        with_unfolding_all rfl
      rw [hcl] at hf
      rcases List.mem_cons.mp hf with rfl | hf
      · exact ⟨grA, by with_unfolding_all rfl, by with_unfolding_all rfl⟩
      · rcases List.mem_cons.mp hf with rfl | hf
        · exact ⟨grX, by with_unfolding_all rfl, by with_unfolding_all rfl⟩
        · cases hf)

/-- C2: the MAP point estimate comes from a chain row at which `log_prob` is
maximal (numpy's `argmax` row): `beta_mode` and `delta_mode` are the exponentials
of that row's `log_beta` and `log_delta`, and `Pzero_mode` is that row's `Pzero`.
The hypothesis `hdisj` rules out posterior-predictive row labels shadowing the
three mode keys in `res_dict`. -/
theorem C2_map_point_estimate (env : Env) (f : String) (gr : GeneResult)
    (chain_df : List ChainRow) (pp_df : List (String × ℚ))
    (hc : env.chainCsv (MC_folder ++ f) = some chain_df)
    (hp : env.ppCsv (ppPath (geneOf f)) = some pp_df)
    (hok : extractGene env f = .ok gr)
    (hdisj : ∀ kv ∈ pp_df,
      kv.1 ∉ (["beta_mode", "delta_mode", "Pzero_mode"] : List String)) :
    ∃ i, ∃ hi : i < chain_df.length,
      (∀ j, ∀ hj : j < chain_df.length,
        (chain_df.get ⟨j, hj⟩).log_prob ≤ (chain_df.get ⟨i, hi⟩).log_prob) ∧
      List.lookup "beta_mode" gr.record =
        some (env.exp ((chain_df.get ⟨i, hi⟩).log_beta)) ∧
      List.lookup "delta_mode" gr.record =
        some (env.exp ((chain_df.get ⟨i, hi⟩).log_delta)) ∧
      List.lookup "Pzero_mode" gr.record = some ((chain_df.get ⟨i, hi⟩).Pzero) := by
  obtain ⟨cd, pp, hc', hp', hcne, hrec, hode⟩ := extractGene_ok_elim env f gr hok
  rw [hc] at hc'
  obtain rfl : chain_df = cd := Option.some_inj.mp hc'
  rw [hp] at hp'
  obtain rfl : pp_df = pp := Option.some_inj.mp hp'
  obtain ⟨i, hi, hmode, hmax⟩ := modeRow_spec chain_df hcne
  have hnot : ∀ k ∈ (["beta_mode", "delta_mode", "Pzero_mode"] : List String),
      k ∉ pp_df.map Prod.fst := by
    intro k hkmem hm
    rcases List.mem_map.mp hm with ⟨kv, hkv, he⟩
    exact hdisj kv hkv (by rw [he]; exact hkmem)
  refine ⟨i, hi, hmax, ?_, ?_, ?_⟩ <;> rw [hrec]
  · rw [lookup_insertAll_not_mem pp_df _ "beta_mode" (hnot _ (by simp)), ← hmode]
    rfl
  · rw [lookup_insertAll_not_mem pp_df _ "delta_mode" (hnot _ (by simp)), ← hmode]
    rfl
  · rw [lookup_insertAll_not_mem pp_df _ "Pzero_mode" (hnot _ (by simp)), ← hmode]
    rfl

/-- C2 witness: the MAP extraction for gene `Abc` of `envW` (its `log_prob` column
is `[1, 5]`, so the second row is the mode row). -/
theorem C2_witness :
    ∃ i, ∃ hi : i < chainA.length,
      (∀ j, ∀ hj : j < chainA.length,
        (chainA.get ⟨j, hj⟩).log_prob ≤ (chainA.get ⟨i, hi⟩).log_prob) ∧
      List.lookup "beta_mode" grA.record =
        some (envW.exp ((chainA.get ⟨i, hi⟩).log_beta)) ∧
      List.lookup "delta_mode" grA.record =
        some (envW.exp ((chainA.get ⟨i, hi⟩).log_delta)) ∧
      List.lookup "Pzero_mode" grA.record = some ((chainA.get ⟨i, hi⟩).Pzero) :=
  C2_map_point_estimate envW "Abc_chain_sample.csv" grA chainA ppA
    (by with_unfolding_all rfl) (by with_unfolding_all rfl)
    (by with_unfolding_all rfl) (by with_unfolding_all decide)

/-- C5: for every successfully processed gene, the loop body performs exactly one
forward ODE integration: it starts from `Pzero_mode` (the mode row's `Pzero`), runs
over `np.linspace(0, 96, 6)` — the six equally spaced points 0, 19.2, 38.4, 57.6,
76.8, 96 — and passes the gene's interpolated mRNA function (identified by the
gene name) and the MAP beta and delta as parameters. -/
theorem C5_one_ode_integration (env : Env) (f : String) (gr : GeneResult)
    (chain_df : List ChainRow) (hc : env.chainCsv (MC_folder ++ f) = some chain_df)
    (hok : extractGene env f = .ok gr) :
    gr.odeCalls = [{ y0 := (modeRow chain_df).Pzero
                     grid := linspace 0 96 6
                     gene := geneOf f
                     beta := env.exp (modeRow chain_df).log_beta
                     delta := env.exp (modeRow chain_df).log_delta }] ∧
    linspace 0 96 6 = [0, 96/5, 192/5, 288/5, 384/5, 96] := by
  obtain ⟨cd, pp, hc', hp', hcne, hrec, hode⟩ := extractGene_ok_elim env f gr hok
  rw [hc] at hc'
  obtain rfl : chain_df = cd := Option.some_inj.mp hc'
  constructor
  · rw [hode]
    rfl
  · with_unfolding_all rfl

/-- C5 witness: the single recorded ODE call for gene `Abc` of `envW`. -/
theorem C5_witness :
    grA.odeCalls = [{ y0 := (modeRow chainA).Pzero
                      grid := linspace 0 96 6
                      gene := geneOf "Abc_chain_sample.csv"
                      beta := envW.exp (modeRow chainA).log_beta
                      delta := envW.exp (modeRow chainA).log_delta }] ∧
    linspace 0 96 6 = [0, 96/5, 192/5, 288/5, 384/5, 96] :=
  C5_one_ode_integration envW "Abc_chain_sample.csv" grA chainA
    (by with_unfolding_all rfl) (by with_unfolding_all rfl)

/-- C3: when a required per-gene input file is missing — a chain file listed at
enumeration time, or the gene's posterior-predictive file — reading it raises an
error, processing halts at that gene (the prefix of the chain list up to and
including that gene already produces the very same error, so later genes are
never reached), and no output summary table is produced. -/
theorem C3_missing_file_halts (env : Env) (fs1 : List String) (f : String)
    (fs2 : List String) (hsplit : chainList env = fs1 ++ f :: fs2)
    (hmiss : env.chainCsv (MC_folder ++ f) = none ∨
      env.ppCsv (ppPath (geneOf f)) = none)
    (hpre : ∀ g ∈ fs1, ∃ gr, extractGene env g = .ok gr ∧ gr.record.length = 54) :
    ∃ e, runExtraction env = .error e ∧ extractRows env (fs1 ++ [f]) = .error e ∧
      ∀ out : RunOutput, runExtraction env ≠ .ok out := by
  have hferr : ∃ e, extractGene env f = .error e := by
    rcases hmiss with hm | hm
    · exact ⟨MC_folder ++ f, by simp only [extractGene, hm]⟩
    · cases hc : env.chainCsv (MC_folder ++ f) with
      | none => exact ⟨MC_folder ++ f, by simp only [extractGene, hc]⟩
      | some cd => exact ⟨ppPath (geneOf f), by simp only [extractGene, hc, hm]⟩
  obtain ⟨e, he⟩ := hferr
  have h1 := extractRows_error_at_gene env fs1 f e hpre he fs2
  have h2 := extractRows_error_at_gene env fs1 f e hpre he []
  have hrun : runExtraction env = .error e := by
    rw [runExtraction, hsplit]
    simp only [h1]
  refine ⟨e, hrun, h2, ?_⟩
  intro out hok
  rw [hrun] at hok
  cases hok

/-- C3 witness: `envMissing` lists one chain file whose posterior-predictive file
is absent; the run produces an error and no output table. -/
theorem C3_witness :
    ∃ e, runExtraction envMissing = .error e ∧
      extractRows envMissing ([] ++ ["Abc_chain_sample.csv"]) = .error e ∧
      ∀ out : RunOutput, runExtraction envMissing ≠ .ok out :=
  C3_missing_file_halts envMissing [] "Abc_chain_sample.csv" []
    (by with_unfolding_all rfl) (Or.inr (by with_unfolding_all rfl))
    (fun g hg => absurd hg (List.not_mem_nil g))

/-- C4: for every chain file whose extraction succeeds, the posterior-predictive
table that was read is the one at path
`MC_folder + gene + '_' + 'posterior_predictive_results.csv'`, where `gene` is the
chain filename's substring before its first underscore (`split('_')[0]`); and (for
pairwise distinct row labels, as a pandas `.loc` scalar lookup presupposes) every
posterior-predictive row label becomes a key of the gene's summary record holding
the corresponding `value` entry. -/
theorem C4_pp_table_lookup (env : Env) (f : String) (gr : GeneResult)
    (hok : extractGene env f = .ok gr) :
    geneOf f = (f.splitOn "_").headD "" ∧
    ∃ pp_df, env.ppCsv
        (MC_folder ++ geneOf f ++ "_" ++ "posterior_predictive_results.csv") =
        some pp_df ∧
      ((pp_df.map Prod.fst).Nodup → ∀ kv ∈ pp_df,
        List.lookup kv.1 gr.record = some kv.2 ∧ kv.1 ∈ gr.record.map Prod.fst) := by
  obtain ⟨cd, pp, hc, hp, hcne, hrec, hode⟩ := extractGene_ok_elim env f gr hok
  refine ⟨rfl, pp, hp, ?_⟩
  intro hnd kv hm
  rw [hrec]
  have hl : List.lookup kv.1 (insertAll (statsPairs env (geneOf f) cd) pp) =
      some kv.2 := lookup_insertAll_mem pp _ kv.1 kv.2 hnd (by simpa using hm)
  exact ⟨hl, lookup_some_mem_keys _ _ _ hl⟩

/-- C4 witness: the posterior-predictive lookup for gene `Abc` of `envW`. -/
theorem C4_witness :
    geneOf "Abc_chain_sample.csv" = ("Abc_chain_sample.csv".splitOn "_").headD "" ∧
    ∃ pp_df, envW.ppCsv
        (MC_folder ++ geneOf "Abc_chain_sample.csv" ++ "_" ++
          "posterior_predictive_results.csv") = some pp_df ∧
      ((pp_df.map Prod.fst).Nodup → ∀ kv ∈ pp_df,
        List.lookup kv.1 grA.record = some kv.2 ∧
          kv.1 ∈ grA.record.map Prod.fst) :=
  C4_pp_table_lookup envW "Abc_chain_sample.csv" grA (by with_unfolding_all rfl)

/-- C6: only regular files whose names end in `chain_sample.csv` are enumerated as
chain files (and only those ending in `posterior_predictive_results.csv` as
posterior-predictive files), the chain list is in ascending alphabetical order,
and the extraction loop processes exactly that list in order (the output row index
is its image under `geneOf`). -/
theorem C6_enumeration_and_order (env : Env) :
    (chainList env).Sorted (fun a b : String => a ≤ b) ∧
    (∀ f, f ∈ chainList env ↔ ∃ e ∈ env.entries, e.name = f ∧ e.isFile = true ∧
        f.endsWith "chain_sample.csv" = true) ∧
    (∀ f, f ∈ ppFileList env ↔ ∃ e ∈ env.entries, e.name = f ∧ e.isFile = true ∧
        f.endsWith "posterior_predictive_results.csv" = true) ∧
    (∀ out : RunOutput, runExtraction env = .ok out →
      out.index = (chainList env).map geneOf) := by
  refine ⟨List.sorted_insertionSort _ _, ?_, ?_, ?_⟩
  · intro f
    rw [chainList, (List.perm_insertionSort _ _).mem_iff]
    simp only [List.mem_map, List.mem_filter, Bool.and_eq_true]
    constructor
    · rintro ⟨e, ⟨he, hf, hend⟩, rfl⟩
      exact ⟨e, he, rfl, hf, hend⟩
    · rintro ⟨e, he, rfl, hf, hend⟩
      exact ⟨e, ⟨he, hf, hend⟩, rfl⟩
  · intro f
    rw [ppFileList, (List.perm_insertionSort _ _).mem_iff]
    simp only [List.mem_map, List.mem_filter, Bool.and_eq_true]
    constructor
    · rintro ⟨e, ⟨he, hf, hend⟩, rfl⟩
      exact ⟨e, he, rfl, hf, hend⟩
    · rintro ⟨e, he, rfl, hf, hend⟩
      exact ⟨e, ⟨he, hf, hend⟩, rfl⟩
  · intro out hok
    obtain ⟨rows, genes, last, hR, hlne, hout⟩ := runExtraction_ok_elim env out hok
    obtain ⟨hg, hv, hall, hlast⟩ := extractRows_ok env (chainList env) (rows, genes, last) hR
    dsimp only at hg
    subst hout
    exact hg

/-- C6 witness: the enumeration facts evaluated on `envW`, whose directory holds a
non-regular entry (`subdir_chain_sample.csv`) and an unrelated file (`notes.txt`)
that are correctly excluded. -/
theorem C6_witness :
    (chainList envW).Sorted (fun a b : String => a ≤ b) ∧
    ("Abc_chain_sample.csv" ∈ chainList envW ↔ ∃ e ∈ envW.entries,
      e.name = "Abc_chain_sample.csv" ∧ e.isFile = true ∧
      ("Abc_chain_sample.csv").endsWith "chain_sample.csv" = true) ∧
    ("subdir_chain_sample.csv" ∈ chainList envW ↔ ∃ e ∈ envW.entries,
      e.name = "subdir_chain_sample.csv" ∧ e.isFile = true ∧
      ("subdir_chain_sample.csv").endsWith "chain_sample.csv" = true) ∧
    ("Abc_posterior_predictive_results.csv" ∈ ppFileList envW ↔ ∃ e ∈ envW.entries,
      e.name = "Abc_posterior_predictive_results.csv" ∧ e.isFile = true ∧
      ("Abc_posterior_predictive_results.csv").endsWith
        "posterior_predictive_results.csv" = true) ∧
    outW.index = (chainList envW).map geneOf :=
  ⟨(C6_enumeration_and_order envW).1,
   (C6_enumeration_and_order envW).2.1 "Abc_chain_sample.csv",
   (C6_enumeration_and_order envW).2.1 "subdir_chain_sample.csv",
   (C6_enumeration_and_order envW).2.2.1 "Abc_posterior_predictive_results.csv",
   (C6_enumeration_and_order envW).2.2.2 outW (by with_unfolding_all rfl)⟩

/-- C7: the HDI helper returns the endpoints of the narrowest interval containing
probability mass `p` of the samples — its endpoints are ordered, the closed
interval they span contains at least fraction `p` of the samples, and every
interval `[a, b]` containing at least fraction `p` of the samples is at least as
wide; and the reported credible-interval bounds for beta and delta are the
exponentials of the HDI endpoints computed on the log-scale sample columns, at
masses 0.95 and 0.68 (`hdisj` rules out posterior-predictive labels shadowing the
eight HDI keys). -/
theorem C7_hdi_property_and_reported_bounds :
    (∀ (samples : List ℚ) (p : ℚ), samples ≠ [] → 0 < p → p ≤ 1 →
      (HDI samples p).1 ≤ (HDI samples p).2 ∧
      p * (samples.length : ℚ) ≤
        (inCount (HDI samples p).1 (HDI samples p).2 samples : ℚ) ∧
      (∀ a b : ℚ, a ≤ b → p * (samples.length : ℚ) ≤ (inCount a b samples : ℚ) →
        (HDI samples p).2 - (HDI samples p).1 ≤ b - a)) ∧
    (∀ (env : Env) (f : String) (gr : GeneResult) (chain_df : List ChainRow)
      (pp_df : List (String × ℚ)),
      env.chainCsv (MC_folder ++ f) = some chain_df →
      env.ppCsv (ppPath (geneOf f)) = some pp_df →
      extractGene env f = .ok gr →
      (∀ kv ∈ pp_df, kv.1 ∉ (["beta_HDI95_left", "beta_HDI95_right",
        "delta_HDI95_left", "delta_HDI95_right", "beta_HDI68_left",
        "beta_HDI68_right", "delta_HDI68_left", "delta_HDI68_right"] :
          List String)) →
      List.lookup "beta_HDI95_left" gr.record =
        some (env.exp (HDI (chain_df.map ChainRow.log_beta) (95/100)).1) ∧
      List.lookup "beta_HDI95_right" gr.record =
        some (env.exp (HDI (chain_df.map ChainRow.log_beta) (95/100)).2) ∧
      List.lookup "delta_HDI95_left" gr.record =
        some (env.exp (HDI (chain_df.map ChainRow.log_delta) (95/100)).1) ∧
      List.lookup "delta_HDI95_right" gr.record =
        some (env.exp (HDI (chain_df.map ChainRow.log_delta) (95/100)).2) ∧
      List.lookup "beta_HDI68_left" gr.record =
        some (env.exp (HDI (chain_df.map ChainRow.log_beta) (68/100)).1) ∧
      List.lookup "beta_HDI68_right" gr.record =
        some (env.exp (HDI (chain_df.map ChainRow.log_beta) (68/100)).2) ∧
      List.lookup "delta_HDI68_left" gr.record =
        some (env.exp (HDI (chain_df.map ChainRow.log_delta) (68/100)).1) ∧
      List.lookup "delta_HDI68_right" gr.record =
        some (env.exp (HDI (chain_df.map ChainRow.log_delta) (68/100)).2)) := by
  constructor
  · exact fun samples p h1 h2 h3 => hdi_spec samples p h1 h2 h3
  · intro env f gr chain_df pp_df hc hp hok hdisj
    obtain ⟨cd, pp, hc', hp', hcne, hrec, hode⟩ := extractGene_ok_elim env f gr hok
    rw [hc] at hc'
    obtain rfl : chain_df = cd := Option.some_inj.mp hc'
    rw [hp] at hp'
    obtain rfl : pp_df = pp := Option.some_inj.mp hp'
    have hnot : ∀ k ∈ (["beta_HDI95_left", "beta_HDI95_right", "delta_HDI95_left",
        "delta_HDI95_right", "beta_HDI68_left", "beta_HDI68_right",
        "delta_HDI68_left", "delta_HDI68_right"] : List String),
        k ∉ pp_df.map Prod.fst := by
      intro k hkmem hm
      rcases List.mem_map.mp hm with ⟨kv, hkv, he⟩
      exact hdisj kv hkv (by rw [he]; exact hkmem)
    refine ⟨?_, ?_, ?_, ?_, ?_, ?_, ?_, ?_⟩ <;> rw [hrec]
    · rw [lookup_insertAll_not_mem pp_df _ "beta_HDI95_left" (hnot _ (by simp))]
      rfl
    · rw [lookup_insertAll_not_mem pp_df _ "beta_HDI95_right" (hnot _ (by simp))]
      rfl
    · rw [lookup_insertAll_not_mem pp_df _ "delta_HDI95_left" (hnot _ (by simp))]
      rfl
    · rw [lookup_insertAll_not_mem pp_df _ "delta_HDI95_right" (hnot _ (by simp))]
      rfl
    · rw [lookup_insertAll_not_mem pp_df _ "beta_HDI68_left" (hnot _ (by simp))]
      rfl
    · rw [lookup_insertAll_not_mem pp_df _ "beta_HDI68_right" (hnot _ (by simp))]
      rfl
    · rw [lookup_insertAll_not_mem pp_df _ "delta_HDI68_left" (hnot _ (by simp))]
      rfl
    · rw [lookup_insertAll_not_mem pp_df _ "delta_HDI68_right" (hnot _ (by simp))]
      rfl

/-- C7 witness: the HDI property at the concrete sample column `[3, 1, 2, 10, 4]`
with mass 4/5, and the reported bounds for gene `Abc` of `envW`. -/
theorem C7_witness :
    ((HDI [3, 1, 2, 10, 4] (4/5)).1 ≤ (HDI [3, 1, 2, 10, 4] (4/5)).2 ∧
      (4/5 : ℚ) * (([3, 1, 2, 10, 4] : List ℚ).length : ℚ) ≤
        (inCount (HDI [3, 1, 2, 10, 4] (4/5)).1 (HDI [3, 1, 2, 10, 4] (4/5)).2
          [3, 1, 2, 10, 4] : ℚ) ∧
      (∀ a b : ℚ, a ≤ b →
        (4/5 : ℚ) * (([3, 1, 2, 10, 4] : List ℚ).length : ℚ) ≤
          (inCount a b [3, 1, 2, 10, 4] : ℚ) →
        (HDI [3, 1, 2, 10, 4] (4/5)).2 - (HDI [3, 1, 2, 10, 4] (4/5)).1 ≤ b - a)) ∧
    (List.lookup "beta_HDI95_left" grA.record =
        some (envW.exp (HDI (chainA.map ChainRow.log_beta) (95/100)).1) ∧
      List.lookup "beta_HDI95_right" grA.record =
        some (envW.exp (HDI (chainA.map ChainRow.log_beta) (95/100)).2) ∧
      List.lookup "delta_HDI95_left" grA.record =
        some (envW.exp (HDI (chainA.map ChainRow.log_delta) (95/100)).1) ∧
      List.lookup "delta_HDI95_right" grA.record =
        some (envW.exp (HDI (chainA.map ChainRow.log_delta) (95/100)).2) ∧
      List.lookup "beta_HDI68_left" grA.record =
        some (envW.exp (HDI (chainA.map ChainRow.log_beta) (68/100)).1) ∧
      List.lookup "beta_HDI68_right" grA.record =
        some (envW.exp (HDI (chainA.map ChainRow.log_beta) (68/100)).2) ∧
      List.lookup "delta_HDI68_left" grA.record =
        some (envW.exp (HDI (chainA.map ChainRow.log_delta) (68/100)).1) ∧
      List.lookup "delta_HDI68_right" grA.record =
        some (envW.exp (HDI (chainA.map ChainRow.log_delta) (68/100)).2)) :=
  ⟨C7_hdi_property_and_reported_bounds.1 [3, 1, 2, 10, 4] (4/5)
      (by with_unfolding_all decide) (by with_unfolding_all decide)
      (by with_unfolding_all decide),
   C7_hdi_property_and_reported_bounds.2 envW "Abc_chain_sample.csv" grA chainA ppA
      (by with_unfolding_all rfl) (by with_unfolding_all rfl)
      (by with_unfolding_all rfl) (by with_unfolding_all decide)⟩

/-- C10: the six mean-normalized trajectory values are, by definition, the raw
model values divided by their arithmetic mean; consequently (as an exact identity
of rationals, floats idealised, whenever that mean is nonzero) the mean of the six
mean-normalized values is 1, and each raw value is its mean-normalized value times
the mean of the raw values. -/
theorem C10_mean_normalization (env : Env) (gene : String)
    (chain_df : List ChainRow)
    (h6 : (modelValsOf env gene chain_df).length = 6)
    (hm : meanQ (modelValsOf env gene chain_df) ≠ 0) :
    meanNormalize (modelValsOf env gene chain_df) =
      (modelValsOf env gene chain_df).map
        (fun x => x / meanQ (modelValsOf env gene chain_df)) ∧
    meanQ (meanNormalize (modelValsOf env gene chain_df)) = 1 ∧
    ∀ tp, tp < 6 → (modelValsOf env gene chain_df).getD tp 0 =
      (meanNormalize (modelValsOf env gene chain_df)).getD tp 0 *
        meanQ (modelValsOf env gene chain_df) := by
  refine ⟨rfl, ?_, ?_⟩
  · have hsum : (meanNormalize (modelValsOf env gene chain_df)).sum =
        (modelValsOf env gene chain_df).sum / meanQ (modelValsOf env gene chain_df) :=
      sum_map_div _ _
    have hlen : (meanNormalize (modelValsOf env gene chain_df)).length = 6 := by
      rw [meanNormalize, List.length_map, h6]
    have hsum0 : (modelValsOf env gene chain_df).sum ≠ 0 := by
      intro h0
      apply hm
      rw [meanQ, h0, zero_div]
    rw [meanQ, hsum, hlen]
    rw [meanQ, h6]
    push_cast
    field_simp
  · intro tp htp
    have htlen : tp < (modelValsOf env gene chain_df).length := by omega
    have htlen2 : tp < (meanNormalize (modelValsOf env gene chain_df)).length := by
      rw [meanNormalize, List.length_map]
      omega
    rw [List.getD_eq_getElem _ 0 htlen, List.getD_eq_getElem _ 0 htlen2]
    simp only [meanNormalize, List.getElem_map]
    exact (div_mul_cancel₀ _ hm).symm

/-- C10 witness: gene `Abc` of `envW` has model values `[1, 2, 3, 4, 5, 9]` with
mean 4 ≠ 0, and the normalization identities hold there. -/
theorem C10_witness :
    meanNormalize (modelValsOf envW "Abc" chainA) =
      (modelValsOf envW "Abc" chainA).map
        (fun x => x / meanQ (modelValsOf envW "Abc" chainA)) ∧
    meanQ (meanNormalize (modelValsOf envW "Abc" chainA)) = 1 ∧
    ∀ tp, tp < 6 → (modelValsOf envW "Abc" chainA).getD tp 0 =
      (meanNormalize (modelValsOf envW "Abc" chainA)).getD tp 0 *
        meanQ (modelValsOf envW "Abc" chainA) :=
  C10_mean_normalization envW "Abc" chainA (by with_unfolding_all rfl)
    (by with_unfolding_all decide)

/-- C9: the result array is allocated with exactly 54 columns and the output
column labels come from the `res_dict` of the last processed gene only — so on a
successful run every gene's record has exactly 54 entries (the 29 `statKeys`
statistics followed by its posterior-predictive labels), the output has 54
columns, which are the last gene's keys sorted, and each output row holds the
corresponding gene's values placed positionally by the last gene's column order;
a gene whose record has a different number of entries makes the array assignment
raise so no output is produced; and a run can succeed even though an earlier
gene's labels differ from the last gene's (same count), silently writing its
values under the wrong column names. -/
theorem C9_column_allocation_and_labels :
    (∀ (env : Env) (out : RunOutput), runExtraction env = .ok out →
      out.columns.length = 54 ∧
      statKeys.length = 29 ∧
      (∀ f ∈ chainList env, (extractGene env f).isOk = true ∧
        recordLen env f = some 54 ∧
        ∃ ppt, recordKeysOf env f = statKeys ++ ppt) ∧
      (∃ flast, (chainList env).getLast? = some flast ∧
        out.columns.Perm (recordKeysOf env flast) ∧
        out.columns.Sorted (fun a b : String => a ≤ b) ∧
        out.rows = (chainList env).map
          (fun f => (colOrder (recordKeysOf env flast)).map
            (fun p => (valuesOf env f).getD p.2 0)))) ∧
    (∀ env : Env, (∃ f ∈ chainList env, (extractGene env f).isOk = true ∧
        recordLen env f ≠ some 54) →
      ∀ out : RunOutput, runExtraction env ≠ .ok out) ∧
    (∃ (env : Env) (out : RunOutput), runExtraction env = .ok out ∧
      ∃ f ∈ chainList env, ∃ flast, (chainList env).getLast? = some flast ∧
        recordKeysOf env f ≠ recordKeysOf env flast) := by
  refine ⟨?_, ?_, ?_⟩
  · intro env out h
    obtain ⟨rows, genes, last, hR, hlne, hout⟩ := runExtraction_ok_elim env out h
    obtain ⟨hg, hv, hall, hlast⟩ :=
      extractRows_ok env (chainList env) (rows, genes, last) hR
    dsimp only at hg hv hlast
    have hfsne : chainList env ≠ [] := by
      intro h0
      rw [h0, extractRows] at hR
      cases hR
      exact hlne rfl
    obtain ⟨flast, hfl⟩ :=
      Option.isSome_iff_exists.mp (List.getLast?_isSome.mpr hfsne)
    have hlasteq := hlast flast hfl
    obtain ⟨grl, hEl, h54l⟩ := hall flast (List.mem_of_getLast?_eq_some hfl)
    have hlast' : last = grl.record := by
      rw [hlasteq, recordOf_eq env flast grl hEl]
    have hkeysl : recordKeysOf env flast = last.map Prod.fst := by
      rw [recordKeysOf_eq env flast grl hEl, hlast']
    subst hout
    refine ⟨?_, rfl, ?_, flast, hfl, ?_, ?_, ?_⟩
    · dsimp only
      rw [List.length_map, colOrder_length, List.length_map, hlast', h54l]
    · intro f hf
      obtain ⟨gr, hE, h54⟩ := hall f hf
      refine ⟨by rw [hE]; rfl, by rw [recordLen_eq env f gr hE, h54], ?_⟩
      obtain ⟨cd, pp, hc, hp, hcne, hrec, hode⟩ := extractGene_ok_elim env f gr hE
      obtain ⟨t, hkeys⟩ := keys_insertAll_extend pp (statsPairs env (geneOf f) cd)
      refine ⟨t, ?_⟩
      rw [recordKeysOf_eq env f gr hE, hrec, hkeys, statsPairs_keys]
    · dsimp only
      rw [hkeysl]
      exact colOrder_names_perm (last.map Prod.fst)
    · dsimp only
      exact colOrder_sorted (last.map Prod.fst)
    · dsimp only
      rw [hkeysl, hv, List.map_map]
      rfl
  · rintro env ⟨f, hf, hisok, hlen⟩ out hok
    obtain ⟨rows, genes, last, hR, hlne, hout⟩ := runExtraction_ok_elim env out hok
    obtain ⟨hg, hv, hall, hlast⟩ :=
      extractRows_ok env (chainList env) (rows, genes, last) hR
    obtain ⟨gr, hE, h54⟩ := hall f hf
    exact hlen (by rw [recordLen_eq env f gr hE, h54])
  · refine ⟨envW, outW, by with_unfolding_all rfl, "Abc_chain_sample.csv",
      by with_unfolding_all decide, "Xyz_chain_sample.csv",
      by with_unfolding_all rfl, by with_unfolding_all decide⟩

/-- C9 witness: the successful run of `envW` exhibits the 54-column output with
last-gene column labels, and the short-record environment `envShort` (3
posterior-predictive rows, hence a 32-entry record) makes the run fail. -/
theorem C9_witness :
    (outW.columns.length = 54 ∧
      statKeys.length = 29 ∧
      (∀ f ∈ chainList envW, (extractGene envW f).isOk = true ∧
        recordLen envW f = some 54 ∧
        ∃ ppt, recordKeysOf envW f = statKeys ++ ppt) ∧
      (∃ flast, (chainList envW).getLast? = some flast ∧
        outW.columns.Perm (recordKeysOf envW flast) ∧
        outW.columns.Sorted (fun a b : String => a ≤ b) ∧
        outW.rows = (chainList envW).map
          (fun f => (colOrder (recordKeysOf envW flast)).map
            (fun p => (valuesOf envW f).getD p.2 0)))) ∧
    (∀ out : RunOutput, runExtraction envShort ≠ .ok out) :=
  ⟨C9_column_allocation_and_labels.1 envW outW (by with_unfolding_all rfl),
   C9_column_allocation_and_labels.2.1 envShort (by with_unfolding_all decide)⟩

end SpatialMP
